import Mathlib

/-!
Verification of the fetter package-audit core against its sources.

The embedding models:
- `src/package.rs` : the `Package` type, its constructors (`from_name_and_version`,
  `from_name_version_direct_url`, `from_dist_info`, `from_file_path`) and its
  case-insensitive ordering;
- `src/table.rs`  : the table-rendering collaborator (`to_table_writer` and the
  `Tableable` trait methods);
- the `VersionSpec` and `DirectURL` components, whose source files
  (`version_spec.rs`, `package_durl.rs`) are not among the sources; these are
  modelled from the specification (their doc comments say so explicitly).

Rust strings are modelled as `List Char` (Rust compares `String`s by UTF-8 byte
order, which agrees with scalar-value order, i.e. with lexicographic order on
the `Char` lists). Rust's `Option`/`Result` become `Option`/`Except`.
-/

namespace Fetter

open Batteries

-- Section A: comparators ------------------------------------------------------

/-- Lexicographic comparison of two lists by an element comparator.  This is the
semantics of Rust's derived `Ord` on `Vec`/`str`: the first unequal position
decides, and a strict prefix is smaller. -/
def cmpList (cmp : α → α → Ordering) : List α → List α → Ordering
  | [], [] => .eq
  | [], _ :: _ => .lt
  | _ :: _, [] => .gt
  | a :: as, b :: bs => (cmp a b).then (cmpList cmp as bs)

/-- Comparison of a `Char` by its Unicode scalar value, as Rust orders `char`
(and as UTF-8 byte order orders the characters of a `str`). -/
def cmpChar (a b : Char) : Ordering := compare a.toNat b.toNat

/-- Comparator obtained by projecting through a key function. -/
def onCmp (f : α → β) (cmp : β → β → Ordering) (a b : α) : Ordering := cmp (f a) (f b)

/-- Comparator on `Option` placing `none` below every `some`. -/
def cmpOptionLow (cmp : α → α → Ordering) : Option α → Option α → Ordering
  | none, none => .eq
  | none, some _ => .lt
  | some _, none => .gt
  | some a, some b => cmp a b

/-- Comparator on `Option` placing `none` above every `some`. -/
def cmpOptionHigh (cmp : α → α → Ordering) : Option α → Option α → Ordering
  | none, none => .eq
  | none, some _ => .gt
  | some _, none => .lt
  | some a, some b => cmp a b

instance cmpList.instOriented (cmp : α → α → Ordering) [OrientedCmp cmp] :
    OrientedCmp (cmpList cmp) where
  symm x y := by
    induction x generalizing y with
    | nil => cases y <;> rfl
    | cons a as ih =>
      cases y with
      | nil => rfl
      | cons b bs =>
        show ((cmp a b).then (cmpList cmp as bs)).swap = (cmp b a).then (cmpList cmp bs as)
        rw [Ordering.swap_then, OrientedCmp.symm a b, ih]

theorem cmpList_le_trans (cmp : α → α → Ordering) [TransCmp cmp] :
    ∀ (x y z : List α), cmpList cmp x y ≠ .gt → cmpList cmp y z ≠ .gt →
      cmpList cmp x z ≠ .gt := by
  intro x
  induction x with
  | nil => intro y z _ _; cases z <;> simp [cmpList]
  | cons a as ih =>
    intro y z h1 h2
    cases y with
    | nil => cases h1 rfl
    | cons b bs =>
      cases z with
      | nil => cases h2 rfl
      | cons c cs =>
        simp only [cmpList, ne_eq, Ordering.then_eq_gt, not_or, not_and] at h1 h2 ⊢
        refine ⟨TransCmp.le_trans h1.1 h2.1, fun hac => ?_⟩
        match hab : cmp a b with
        | .gt => exact absurd hab h1.1
        | .eq =>
          have hbc : cmp b c = .eq := by
            rw [← TransCmp.cmp_congr_left hab]; exact hac
          exact ih bs cs (h1.2 hab) (h2.2 hbc)
        | .lt =>
          have : cmp b c = .gt := by
            rw [← TransCmp.cmp_congr_right hac, OrientedCmp.cmp_eq_gt]; exact hab
          exact absurd this h2.1

instance cmpList.instTrans (cmp : α → α → Ordering) [TransCmp cmp] :
    TransCmp (cmpList cmp) where
  le_trans h1 h2 := cmpList_le_trans cmp _ _ _ h1 h2

instance cmpChar.instTrans : TransCmp cmpChar where
  symm a b := @OrientedCmp.symm _ (compare (α := Nat)) _ a.toNat b.toNat
  le_trans h1 h2 := @TransCmp.le_trans _ (compare (α := Nat)) _ _ _ _ h1 h2

instance onCmp.instOriented (f : α → β) (cmp : β → β → Ordering) [OrientedCmp cmp] :
    OrientedCmp (onCmp f cmp) where
  symm a b := OrientedCmp.symm (f a) (f b)

instance onCmp.instTrans (f : α → β) (cmp : β → β → Ordering) [TransCmp cmp] :
    TransCmp (onCmp f cmp) where
  le_trans h1 h2 := @TransCmp.le_trans _ cmp _ _ _ _ h1 h2

instance cmpOptionLow.instOriented (cmp : α → α → Ordering) [OrientedCmp cmp] :
    OrientedCmp (cmpOptionLow cmp) where
  symm a b := by
    cases a <;> cases b <;> simp [cmpOptionLow, Ordering.swap]
    exact OrientedCmp.symm _ _

instance cmpOptionLow.instTrans (cmp : α → α → Ordering) [TransCmp cmp] :
    TransCmp (cmpOptionLow cmp) where
  le_trans {a b c} h1 h2 := by
    cases a <;> cases b <;> cases c <;> simp_all [cmpOptionLow]
    exact TransCmp.le_trans h1 h2

instance cmpOptionHigh.instOriented (cmp : α → α → Ordering) [OrientedCmp cmp] :
    OrientedCmp (cmpOptionHigh cmp) where
  symm a b := by
    cases a <;> cases b <;> simp [cmpOptionHigh, Ordering.swap]
    exact OrientedCmp.symm _ _

instance cmpOptionHigh.instTrans (cmp : α → α → Ordering) [TransCmp cmp] :
    TransCmp (cmpOptionHigh cmp) where
  le_trans {a b c} h1 h2 := by
    cases a <;> cases b <;> cases c <;> simp_all [cmpOptionHigh]
    exact TransCmp.le_trans h1 h2

-- Section B: string primitives used by package.rs ----------------------------

/-- Rust `str::split(c)`: the list of `c`-separated segments.  As in Rust, the
empty string yields one empty segment, and adjacent separators yield empty
segments. -/
def splitOnChar (c : Char) : List Char → List (List Char)
  | [] => [[]]
  | x :: xs =>
    match splitOnChar c xs with
    | [] => [[]]
    | r :: rs => if x = c then [] :: r :: rs else (x :: r) :: rs

/-- Rust `Vec::join(sep)`: concatenate the pieces with `sep` between them. -/
def joinSep (sep : List α) : List (List α) → List α
  | [] => []
  | [s] => s
  | s :: rest => s ++ sep ++ joinSep sep rest

/-- Fuel-driven worker for `trimEndMatches`; the fuel is an upper bound on the
number of characters left, so `fuel = s.length` always suffices. -/
def trimEndAux (pat : List Char) : Nat → List Char → List Char
  | 0, s => s
  | fuel + 1, s =>
    if pat ≠ [] ∧ pat <:+ s then trimEndAux pat fuel (s.take (s.length - pat.length))
    else s

/-- Rust `str::trim_end_matches(pat)`: repeatedly remove the suffix `pat` while
the string still ends with it. -/
def trimEndMatches (s pat : List Char) : List Char := trimEndAux pat s.length s

/-- Rust `str::to_lowercase`, restricted to the simple one-to-one case mapping
(`Char.toLower`); all inputs exercised by the spec are ASCII, where the two
agree. -/
def toLowerStr (s : List Char) : List Char := s.map Char.toLower

-- Section C: the version component (modelled from the spec) -------------------

/-- Modelled from the spec: the kind of a pre-release marker of `VersionSpec`
(`version_spec.rs` is not among the sources); kinds order `a < b < rc`. -/
inductive PreKind where
  | a
  | b
  | rc
deriving DecidableEq, Repr

/-- Rank of a pre-release kind realising the order `a < b < rc`. -/
def PreKind.rank : PreKind → Nat
  | .a => 0
  | .b => 1
  | .rc => 2

/-- Modelled from the spec: one segment of a local-version label of
`VersionSpec` (`version_spec.rs` is not among the sources): alphanumeric or
numeric. -/
inductive LocalSeg where
  | num (n : Nat)
  | alpha (s : List Char)
deriving DecidableEq, Repr

/-- Comparison of pre-release kinds: `a < b < rc` via their rank. -/
def cmpPreKind : PreKind → PreKind → Ordering := onCmp PreKind.rank compare

/-- Comparison of pre-release markers: kind first, then number. -/
def cmpPreVal : PreKind × Nat → PreKind × Nat → Ordering :=
  compareLex (onCmp Prod.fst cmpPreKind) (onCmp Prod.snd compare)

/-- Modelled from the spec: pre-release comparison — "a version with no
pre-release is greater than one with a pre-release of the same release
segments". -/
def cmpPre : Option (PreKind × Nat) → Option (PreKind × Nat) → Ordering :=
  cmpOptionHigh cmpPreVal

/-- Modelled from the spec: post-release comparison — "post-release versions
are greater than the corresponding release-only version". -/
def cmpPost : Option Nat → Option Nat → Ordering := cmpOptionLow compare

/-- Modelled from the spec: dev-release comparison — "dev-releases are less
than the corresponding non-dev version". -/
def cmpDev : Option Nat → Option Nat → Ordering := cmpOptionHigh compare

/-- Modelled from the spec: comparison of one local-version segment — "numeric
segments compared numerically and non-numeric alphabetically".  The spec does
not fix the order between a numeric and a non-numeric segment; following the
versioning convention the spec references, numeric segments order above
non-numeric ones. -/
def cmpLocalSeg : LocalSeg → LocalSeg → Ordering
  | .num a, .num b => compare a b
  | .alpha s, .alpha t => cmpList cmpChar s t
  | .num _, .alpha _ => .gt
  | .alpha _, .num _ => .lt

/-- Modelled from the spec: local-version label comparison, "segment-wise ...
with any local label greater than none". -/
def cmpLocal : Option (List LocalSeg) → Option (List LocalSeg) → Ordering :=
  cmpOptionLow (cmpList cmpLocalSeg)

/-- Zero-pad a release-segment sequence on the right to length `n`. -/
def padZero (xs : List Nat) (n : Nat) : List Nat :=
  xs ++ List.replicate (n - xs.length) 0

/-- Modelled from the spec: release-segment comparison — "release-segment
sequences of unequal length are compared after zero-padding the shorter to the
longer's length", element-wise numerically. -/
def cmpRelease (xs ys : List Nat) : Ordering :=
  cmpList compare (padZero xs (max xs.length ys.length))
    (padZero ys (max xs.length ys.length))

/-- Modelled from the spec: the parsed form of a `VersionSpec`
(`version_spec.rs` is not among the sources) — "ordered tuple of: release
segments ...; optional pre-release marker (kind + number); optional
post-release number; optional dev-release number; optional local-version
label". -/
structure VersionParsed where
  release : List Nat
  pre : Option (PreKind × Nat)
  post : Option Nat
  dev : Option Nat
  localv : Option (List LocalSeg)
deriving DecidableEq, Repr

/-- Modelled from the spec: comparison of two parsed versions — release
segments first, then pre-release, post-release, dev-release, and finally the
local-version label. -/
def versionCmp : VersionParsed → VersionParsed → Ordering :=
  compareLex (onCmp VersionParsed.release cmpRelease)
    (compareLex (onCmp VersionParsed.pre cmpPre)
      (compareLex (onCmp VersionParsed.post cmpPost)
        (compareLex (onCmp VersionParsed.dev cmpDev)
          (onCmp VersionParsed.localv cmpLocal))))

/-- Modelled from the spec: a `VersionSpec` (`version_spec.rs` is not among
the sources) is either a normally parsed version or the raw/opaque fallback
holding the original text of an unparseable input. -/
inductive VersionSpec where
  | parsed (p : VersionParsed)
  | raw (text : List Char)
deriving DecidableEq, Repr

/-- Modelled from the spec: total comparison on `VersionSpec`.  Parsed versions
compare by `versionCmp`, raw fallbacks compare by their text; the spec leaves
the relative order of a parsed and a raw value open, and the model places
parsed values below raw ones. -/
def VersionSpec.cmp : VersionSpec → VersionSpec → Ordering
  | .parsed p, .parsed q => versionCmp p q
  | .raw s, .raw t => cmpList cmpChar s t
  | .parsed _, .raw _ => .lt
  | .raw _, .parsed _ => .gt

/-- Value of a digit string, most significant digit first. -/
def digitsToNat (s : List Char) : Nat :=
  s.foldl (fun acc c => acc * 10 + (c.toNat - '0'.toNat)) 0

/-- A non-empty all-digit segment. -/
def isNumericSeg (s : List Char) : Bool := !s.isEmpty && s.all Char.isDigit

/-- Modelled from the spec: the parsing step of `VersionSpec::new`
(`version_spec.rs` is not among the sources).  A dotted sequence of numeric
segments parses as release segments (e.g. `2.1.10` becomes `[2,1,10]`); the
pre/post/dev/local suffix grammar is not needed by any claim and such inputs
fall back, like all malformed input, to the raw variant. -/
def tryParseVersion (s : List Char) : Option VersionParsed :=
  let segs := splitOnChar '.' s
  if segs.all isNumericSeg then some ⟨segs.map digitsToNat, none, none, none, none⟩
  else none

/-- Modelled from the spec: `VersionSpec::new` — "`parse(text) -> VersionSpec`
never fails — malformed input degrades to an opaque fallback variant rather
than erroring". -/
def VersionSpec.new (s : List Char) : VersionSpec :=
  match tryParseVersion s with
  | some p => .parsed p
  | none => .raw s

-- Section D: lawfulness of the version comparators ---------------------------

theorem ordering_then_eq (o : Ordering) : o.then .eq = o := by
  cases o <;> rfl

theorem ordering_then_assoc (o p q : Ordering) :
    (o.then p).then q = o.then (p.then q) := by
  cases o <;> rfl

theorem cmpList_append (cmp : α → α → Ordering) :
    ∀ {as bs : List α}, as.length = bs.length → ∀ (cs ds : List α),
      cmpList cmp (as ++ cs) (bs ++ ds) = (cmpList cmp as bs).then (cmpList cmp cs ds)
  | [], [], _, cs, ds => rfl
  | a :: as, b :: bs, h, cs, ds => by
    have ih := cmpList_append cmp (by simpa using h) cs ds
    show (cmp a b).then (cmpList cmp (as ++ cs) (bs ++ ds)) = _
    rw [ih, ← ordering_then_assoc]
    rfl

theorem padZero_split (xs : List Nat) {m n : Nat} (hm : xs.length ≤ m)
    (hmn : m ≤ n) : padZero xs n = padZero xs m ++ List.replicate (n - m) 0 := by
  have : n - xs.length = (m - xs.length) + (n - m) := by omega
  simp only [padZero, this, List.replicate_add, List.append_assoc]

theorem length_padZero (xs : List Nat) {n : Nat} (h : xs.length ≤ n) :
    (padZero xs n).length = n := by
  simp only [padZero, List.length_append, List.length_replicate]
  omega

theorem cmpRelease_eq_pad {xs ys : List Nat} {n : Nat}
    (h : max xs.length ys.length ≤ n) :
    cmpList compare (padZero xs n) (padZero ys n) = cmpRelease xs ys := by
  have hx : xs.length ≤ max xs.length ys.length := Nat.le_max_left _ _
  have hy : ys.length ≤ max xs.length ys.length := Nat.le_max_right _ _
  rw [padZero_split xs hx h, padZero_split ys hy h,
    cmpList_append compare
      (by rw [length_padZero xs hx, length_padZero ys hy]),
    @OrientedCmp.cmp_refl _ (cmpList (compare (α := Nat))) _ _,
    ordering_then_eq]
  rfl

instance cmpRelease.instOriented : OrientedCmp cmpRelease where
  symm x y := by
    show (cmpRelease x y).swap = cmpRelease y x
    unfold cmpRelease
    rw [Nat.max_comm y.length x.length]
    exact @OrientedCmp.symm _ (cmpList (compare (α := Nat))) _ _ _

instance cmpRelease.instTrans : TransCmp cmpRelease where
  le_trans {x y z} h1 h2 := by
    rw [← cmpRelease_eq_pad (n := max x.length (max y.length z.length)) (by omega)] at h1 h2 ⊢
    exact TransCmp.le_trans h1 h2

instance cmpPreKind.instTrans : TransCmp cmpPreKind :=
  inferInstanceAs (TransCmp (onCmp PreKind.rank compare))

instance cmpPreVal.instTrans : TransCmp cmpPreVal :=
  inferInstanceAs (TransCmp (compareLex (onCmp Prod.fst cmpPreKind) (onCmp Prod.snd compare)))

instance cmpPre.instTrans : TransCmp cmpPre :=
  inferInstanceAs (TransCmp (cmpOptionHigh cmpPreVal))

instance cmpPost.instTrans : TransCmp cmpPost :=
  inferInstanceAs (TransCmp (cmpOptionLow compare))

instance cmpDev.instTrans : TransCmp cmpDev :=
  inferInstanceAs (TransCmp (cmpOptionHigh compare))

instance cmpLocalSeg.instOriented : OrientedCmp cmpLocalSeg where
  symm a b := by
    cases a <;> cases b
    case num.num => exact @OrientedCmp.symm _ (compare (α := Nat)) _ _ _
    case num.alpha => rfl
    case alpha.num => rfl
    case alpha.alpha => exact @OrientedCmp.symm _ (cmpList cmpChar) _ _ _

instance cmpLocalSeg.instTrans : TransCmp cmpLocalSeg where
  le_trans {x y z} h1 h2 := by
    cases x <;> cases y <;> cases z <;> simp_all [cmpLocalSeg]
    · exact @TransCmp.le_trans _ (compare (α := Nat)) _ _ _ _ h1 h2
    · exact @TransCmp.le_trans _ (cmpList cmpChar) _ _ _ _ h1 h2

instance cmpLocal.instTrans : TransCmp cmpLocal :=
  inferInstanceAs (TransCmp (cmpOptionLow (cmpList cmpLocalSeg)))

instance versionCmp.instTrans : TransCmp versionCmp :=
  inferInstanceAs (TransCmp
    (compareLex (onCmp VersionParsed.release cmpRelease)
      (compareLex (onCmp VersionParsed.pre cmpPre)
        (compareLex (onCmp VersionParsed.post cmpPost)
          (compareLex (onCmp VersionParsed.dev cmpDev)
            (onCmp VersionParsed.localv cmpLocal))))))

theorem VersionSpec.cmp_refl (v : VersionSpec) : VersionSpec.cmp v v = .eq := by
  cases v with
  | parsed p => exact @OrientedCmp.cmp_refl _ versionCmp _ _
  | raw s => exact @OrientedCmp.cmp_refl _ (cmpList cmpChar) _ _

-- Section E: the DirectURL component (modelled from the spec) and Package ----

/-- Modelled from the spec: the provenance kind of a `DirectURL`
(`package_durl.rs` is not among the sources) — "one of {local directory path,
archive URL, VCS URL with optional commit/tag/branch}". -/
inductive DirectURLKind where
  | localDir (path : List Char)
  | archive (url : List Char)
  | vcs (url : List Char) (commit : Option (List Char))
deriving DecidableEq, Repr

/-- Modelled from the spec: a `DirectURL` provenance record
(`package_durl.rs` is not among the sources) — a provenance kind together with
the editable-install flag. -/
structure DirectURL where
  kind : DirectURLKind
  editable : Bool
deriving DecidableEq, Repr

/-- The `Package` struct of `package.rs` (lines 10-15): name, version,
optional provenance. -/
structure Package where
  name : List Char
  version : VersionSpec
  direct_url : Option DirectURL
deriving DecidableEq, Repr

/-- Modelled from the spec: `VersionSpec` equality — "two VersionSpec values
compare equal iff every component compares equal" — that is, comparison
equality. -/
def VersionSpec.eqv (a b : VersionSpec) : Bool := VersionSpec.cmp a b == .eq

/-- The derived `PartialEq` of `Package` (line 10 of `package.rs`): field-wise
equality over all three fields, with the version field compared by
`VersionSpec` equality. -/
def Package.eqv (a b : Package) : Bool :=
  a.name == b.name && VersionSpec.eqv a.version b.version &&
    a.direct_url == b.direct_url

/-- Injective encoding of a pre-release marker as hasher input. -/
def encodePre : Option (PreKind × Nat) → List Nat
  | none => [0]
  | some (k, n) => [1, k.rank, n]

/-- Injective encoding of an optional number as hasher input. -/
def encodeNatOpt : Option Nat → List Nat
  | none => [0]
  | some n => [1, n]

/-- Injective encoding of a local-version segment as hasher input. -/
def encodeLocalSeg : LocalSeg → List Nat
  | .num n => [0, n]
  | .alpha s => 1 :: s.length :: s.map Char.toNat

/-- Injective encoding of a local-version label as hasher input. -/
def encodeLocal : Option (List LocalSeg) → List Nat
  | none => [0]
  | some segs => 1 :: segs.length :: (segs.map encodeLocalSeg).flatten

/-- Hasher input stream of a `VersionSpec` under a derived `Hash`: a
discriminant followed by the component data. -/
def VersionSpec.hashInputs : VersionSpec → List Nat
  | .parsed p =>
    0 :: p.release.length :: p.release ++ encodePre p.pre ++
      encodeNatOpt p.post ++ encodeNatOpt p.dev ++ encodeLocal p.localv
  | .raw s => 1 :: s.length :: s.map Char.toNat

/-- Hasher input stream of a `DirectURL` under a derived `Hash`. -/
def DirectURL.hashInputs (d : DirectURL) : List Nat :=
  (match d.kind with
    | .localDir p => 0 :: p.length :: p.map Char.toNat
    | .archive u => 1 :: u.length :: u.map Char.toNat
    | .vcs u c =>
      2 :: u.length :: u.map Char.toNat ++
        (match c with
          | none => [0]
          | some t => 1 :: t.length :: t.map Char.toNat)) ++
    [if d.editable then 1 else 0]

/-- The data stream the derived `Hash` of `Package` (line 10 of `package.rs`)
feeds to the hasher: each field in declaration order, an `Option` contributing
its discriminant and then its payload.  Two packages hash identically for every
hasher exactly when these streams coincide. -/
def Package.hashInputs (p : Package) : List Nat :=
  p.name.map Char.toNat ++ [p.name.length] ++ VersionSpec.hashInputs p.version ++
    (match p.direct_url with
      | none => [0]
      | some d => 1 :: d.hashInputs)

/-- The `.dist-info` suffix marking a distribution-metadata directory. -/
def distInfoSuffix : List Char := ".dist-info".toList

/-- `Package::from_name_and_version` (package.rs lines 17-23). -/
def Package.from_name_and_version (name version : List Char) : Option Package :=
  some { name := name, version := VersionSpec.new version, direct_url := none }

/-- `Package::from_name_version_direct_url` (package.rs lines 24-34). -/
def Package.from_name_version_direct_url (name version : List Char)
    (direct_url : Option DirectURL) : Option Package :=
  some { name := name, version := VersionSpec.new version, direct_url := direct_url }

/-- `Package::from_dist_info` (package.rs lines 35-46): accept only names
ending in `.dist-info`; strip that suffix (repeatedly, as `trim_end_matches`
does), split the stem on `-`, and require at least two segments; the last
segment is the version, the others re-joined with `-` are the name. -/
def Package.from_dist_info (input : List Char) : Option Package :=
  if distInfoSuffix.isSuffixOf input then
    let trimmed_input := trimEndMatches input distInfoSuffix
    let parts := splitOnChar '-' trimmed_input
    if 2 ≤ parts.length then
      let name := joinSep ['-'] parts.dropLast
      match parts.getLast? with
      | some version => Package.from_name_and_version name version
      | none => none
    else none
  else none

/-- The filesystem facts `Package::from_file_path` consults about its argument
path: the path's file name (if any), whether the path is a directory, whether a
colocated `direct_url.json` exists as a file, and what `DirectURL::from_file`
returns on it (`.error` for an unreadable or unparseable file). -/
structure PathInfo where
  file_name : Option (List Char)
  is_dir : Bool
  durl_is_file : Bool
  durl_from_file : Except Unit DirectURL

/-- `Package::from_file_path` (package.rs lines 47-65), over the `PathInfo`
abstraction of the filesystem: like `from_dist_info` but requiring a
directory, and attaching the provenance record when `direct_url.json` exists
and parses (`.ok()` turns a failure into `None`). -/
def Package.from_file_path (fp : PathInfo) : Option Package :=
  match fp.file_name with
  | none => none
  | some file_name =>
    if distInfoSuffix.isSuffixOf file_name && fp.is_dir then
      let durl := if fp.durl_is_file then fp.durl_from_file.toOption else none
      let tfn := trimEndMatches file_name distInfoSuffix
      let parts := splitOnChar '-' tfn
      if 2 ≤ parts.length then
        let name := joinSep ['-'] parts.dropLast
        match parts.getLast? with
        | some version => Package.from_name_version_direct_url name version durl
        | none => none
      else none
    else none

/-- The `Ord` impl for `Package` (package.rs lines 69-76): case-insensitive
name comparison first, then version comparison. -/
def Package.cmp (a b : Package) : Ordering :=
  (cmpList cmpChar (toLowerStr a.name) (toLowerStr b.name)).then
    (VersionSpec.cmp a.version b.version)

-- Section F: the table-rendering collaborator (table.rs) ---------------------

/-- A rendered cell/line of output text. -/
abbrev Str := List Char

/-- `RowableContext` (table.rs lines 27-32). -/
inductive RowableContext where
  | Delimited
  | TTY
deriving DecidableEq, Repr

/-- A `Rowable` record, reduced to its `to_rows` behavior (table.rs lines
34-37): a function from the context to the rows (each a list of cells) it
renders as. -/
def Record := RowableContext → List (List Str)

/-- `HeaderFormat` (table.rs lines 189-202). -/
structure HeaderFormat where
  header : Str
  ellipsisable : Bool

/-- `WidthFormat` (table.rs lines 49-53). -/
structure WidthFormat where
  width_pad : Nat
  width_chars : Nat
deriving DecidableEq, Repr

/-- `to_writer_delimited` (table.rs lines 39-47): the bytes it writes — the
cells joined by the delimiter, plus the newline of `writeln!`. -/
def to_writer_delimited (row : List Str) (delimiter : Str) : Str :=
  joinSep delimiter row ++ ['\n']

/-- `optimize_widths` (table.rs lines 55-114).  `w_terminal` abstracts
`terminal::size()` (0 when unavailable, as in the source's error arm).  The
`f64` expression `(width / w_ellipsisable * w_excess) as usize` is modelled by
Nat floor division, and the source's `usize` subtractions (which would panic on
underflow) by Nat saturating subtraction. -/
def optimize_widths (widths_max : List Nat) (ellipsisable : List Bool)
    (w_gutter : Nat) (w_terminal : Nat) : List WidthFormat :=
  let w_total := widths_max.sum + w_gutter * widths_max.length
  let ellipsisable_any := ellipsisable.any id
  if !ellipsisable_any || w_total ≤ w_terminal || w_terminal == 0 then
    widths_max.map fun e => { width_chars := e, width_pad := e + w_gutter }
  else
    let w_excess := w_total - w_terminal
    let w_ellipsisable :=
      ((widths_max.zip ellipsisable).filter (fun we => we.2)).foldl
        (fun acc we => acc + we.1) 0
    (widths_max.zip ellipsisable).map fun we =>
      if we.2 then
        let reduction := we.1 * w_excess / w_ellipsisable
        let w_field := max (we.1 - reduction) 3
        { width_chars := w_field - w_gutter, width_pad := w_field }
      else
        { width_chars := we.1, width_pad := we.1 + w_gutter }

/-- Rust's `format!("{:<w$}", v)`: left-align, pad with spaces to width `w`
(no truncation when the value is longer). -/
def padRight (s : Str) (w : Nat) : Str := s ++ List.replicate (w - s.length) ' '

/-- `prepare_field` (table.rs lines 116-130). -/
def prepare_field (value : Str) (widths : WidthFormat) : Str :=
  if value.length ≤ widths.width_chars then
    padRight value widths.width_pad
  else if 3 < widths.width_chars && 3 < value.length - widths.width_chars then
    padRight (value.take (widths.width_chars - 3) ++ "...".toList) widths.width_pad
  else
    padRight (value.take widths.width_chars) widths.width_pad

/-- One pass of the width-maximisation loop (table.rs lines 162-169): raise
each accumulated width to the length of the corresponding cell of the row.
(The source indexes `widths_max[i]`, so a row longer than the header list
would panic; the model ignores the excess cells.) -/
def updateWidthsRow (acc : List Nat) (row : List Str) : List Nat :=
  match acc, row with
  | [], _ => []
  | a :: as, [] => a :: as
  | a :: as, s :: ss => max a s.length :: updateWidthsRow as ss

/-- `to_table_writer` (table.rs lines 133-187): the bytes written to the
writer, wrapped in the `Result` the source returns.  Writer failures are not
modelled, so every `?` site succeeds; `w_terminal` abstracts the terminal
width exactly as in `optimize_widths`. -/
def to_table_writer (headers : List HeaderFormat) (records : List Record)
    (delimiter : Option Str) (context : RowableContext) (w_terminal : Nat) :
    Except Unit Str :=
  if records.isEmpty || headers.isEmpty then .ok [] else
  let header_labels : List Str := headers.map (·.header)
  let ellipsisable : List Bool := headers.map (·.ellipsisable)
  match delimiter with
  | some delim =>
    .ok (to_writer_delimited header_labels delim ++
      (records.map fun r =>
        ((r context).map fun row => to_writer_delimited row delim).flatten).flatten)
  | none =>
    let rows : List (List Str) := (records.map fun r => r context).flatten
    let widths_max := rows.foldl updateWidthsRow (header_labels.map List.length)
    let w_gutter := 2
    let widths := optimize_widths widths_max ellipsisable w_gutter w_terminal
    .ok (((header_labels.zip widths).map fun hw => prepare_field hw.1 hw.2).flatten
        ++ ['\n'] ++
      (rows.map fun row =>
        ((row.zip widths).map fun ew => prepare_field ew.1 ew.2).flatten ++
          ['\n']).flatten)

/-- A `Tableable` (table.rs lines 204-222), reduced to the data its two
accessors return. -/
structure Tableable where
  header : List HeaderFormat
  records : List Record

/-- `Tableable::to_writer` (table.rs lines 208-222): it runs `to_table_writer`
with `let _ = ...`, discarding any error, and always returns `Ok`. -/
def Tableable.to_writer (t : Tableable) (delimiter : Option Str)
    (context : RowableContext) (w_terminal : Nat) : Except Unit Str :=
  match to_table_writer t.header t.records delimiter context w_terminal with
  | .ok out => .ok out
  | .error _ => .ok []

-- Section G: supporting lemmas -----------------------------------------------

theorem trimEndAux_of_not_suffix {pat s : List Char} (h : ¬ pat <:+ s) :
    ∀ fuel, trimEndAux pat fuel s = s
  | 0 => rfl
  | fuel + 1 => by
    rw [trimEndAux, if_neg]
    exact fun hc => h hc.2

theorem trimEndAux_nil (pat : List Char) : ∀ fuel, trimEndAux pat fuel [] = []
  | 0 => rfl
  | _ + 1 => by
    rw [trimEndAux, if_neg]
    exact fun hc => hc.1 (List.suffix_nil.mp hc.2)

theorem trimEndAux_fuel {pat : List Char} :
    ∀ (fuel₁ fuel₂ : Nat) (s : List Char), s.length ≤ fuel₁ → s.length ≤ fuel₂ →
      trimEndAux pat fuel₁ s = trimEndAux pat fuel₂ s := by
  intro fuel₁
  induction fuel₁ with
  | zero =>
    intro fuel₂ s h1 _
    have hs : s = [] := List.eq_nil_of_length_eq_zero (Nat.le_zero.mp h1)
    subst hs
    rw [trimEndAux_nil, trimEndAux_nil]
  | succ fuel ih =>
    intro fuel₂ s h1 h2
    cases fuel₂ with
    | zero =>
      have hs : s = [] := List.eq_nil_of_length_eq_zero (Nat.le_zero.mp h2)
      subst hs
      rw [trimEndAux_nil, trimEndAux_nil]
    | succ m =>
      rw [trimEndAux, trimEndAux]
      by_cases hc : pat ≠ [] ∧ pat <:+ s
      · rw [if_pos hc, if_pos hc]
        have hp : 0 < pat.length := List.length_pos.mpr hc.1
        have hs : pat.length ≤ s.length := hc.2.length_le
        apply ih
        · simp only [List.length_take]; omega
        · simp only [List.length_take]; omega
      · rw [if_neg hc, if_neg hc]

theorem trimEndMatches_of_not_suffix {s pat : List Char} (h : ¬ pat <:+ s) :
    trimEndMatches s pat = s :=
  trimEndAux_of_not_suffix h s.length

theorem trimEndMatches_append {s pat : List Char} (hp : pat ≠ []) :
    trimEndMatches (s ++ pat) pat = trimEndMatches s pat := by
  have hplen : 0 < pat.length := List.length_pos.mpr hp
  obtain ⟨m, hm⟩ : ∃ m, (s ++ pat).length = m + 1 :=
    ⟨(s ++ pat).length - 1, by simp only [List.length_append]; omega⟩
  have hfuel : s.length ≤ m := by
    have := hm
    simp only [List.length_append] at this
    omega
  show trimEndAux pat ((s ++ pat).length) (s ++ pat) = trimEndMatches s pat
  rw [hm, trimEndAux, if_pos ⟨hp, List.suffix_append s pat⟩]
  have htake : (s ++ pat).take ((s ++ pat).length - pat.length) = s := by
    have hlen : (s ++ pat).length - pat.length = s.length := by
      simp only [List.length_append]; omega
    rw [hlen]
    exact List.take_left s pat
  rw [htake]
  exact trimEndAux_fuel m s.length s hfuel (Nat.le_refl _)

theorem splitOnChar_ne_nil (c : Char) : ∀ s, splitOnChar c s ≠ []
  | [] => by simp [splitOnChar]
  | x :: xs => by
    cases h : splitOnChar c xs with
    | nil => simp [splitOnChar, h]
    | cons r rs =>
      simp only [splitOnChar, h]
      split <;> simp

theorem splitOnChar_of_not_mem {c : Char} : ∀ {s : List Char}, c ∉ s → splitOnChar c s = [s]
  | [], _ => rfl
  | x :: xs, h => by
    have hx : ¬ x = c := fun he => h (he ▸ List.mem_cons_self x xs)
    have ih := splitOnChar_of_not_mem (s := xs) fun hm => h (List.mem_cons_of_mem x hm)
    simp [splitOnChar, ih, hx]

theorem splitOnChar_append {c : Char} {ys : List Char} (hy : c ∉ ys) :
    ∀ xs, splitOnChar c (xs ++ c :: ys) = splitOnChar c xs ++ [ys]
  | [] => by simp [splitOnChar, splitOnChar_of_not_mem hy]
  | x :: xs => by
    have ih := splitOnChar_append hy xs
    rcases h : splitOnChar c xs with _ | ⟨r, rs⟩
    · exact absurd h (splitOnChar_ne_nil c xs)
    · have ih2 : splitOnChar c (xs ++ c :: ys) = r :: (rs ++ [ys]) := by
        rw [ih, h]
        rfl
      show splitOnChar c (x :: (xs ++ c :: ys)) = splitOnChar c (x :: xs) ++ [ys]
      simp only [splitOnChar, ih2, h]
      by_cases hx : x = c
      · rw [if_pos hx, if_pos hx]
        rfl
      · rw [if_neg hx, if_neg hx]
        rfl

theorem joinSep_splitOnChar (c : Char) : ∀ s, joinSep [c] (splitOnChar c s) = s
  | [] => rfl
  | x :: xs => by
    have ih := joinSep_splitOnChar c xs
    rcases h : splitOnChar c xs with _ | ⟨r, rs⟩
    · exact absurd h (splitOnChar_ne_nil c xs)
    · rw [h] at ih
      simp only [splitOnChar, h]
      by_cases hx : x = c
      · subst hx
        rw [if_pos rfl]
        show [] ++ [x] ++ joinSep [x] (r :: rs) = x :: xs
        rw [ih]
        rfl
      · rw [if_neg hx]
        cases rs with
        | nil =>
          show x :: r = x :: xs
          rw [show r = xs from ih]
        | cons r2 rs2 =>
          show (x :: r) ++ [c] ++ joinSep [c] (r2 :: rs2) = x :: xs
          rw [← ih]
          rfl

theorem joinSep_concat (c : Char) (b : List Char) :
    ∀ (A : List (List Char)), A ≠ [] →
      joinSep [c] (A ++ [b]) = joinSep [c] A ++ c :: b
  | [], h => absurd rfl h
  | [s], _ => by
    show s ++ [c] ++ joinSep [c] [b] = s ++ c :: b
    simp [joinSep]
  | s :: s2 :: rest, _ => by
    have ih := joinSep_concat c b (s2 :: rest) (by simp)
    show s ++ [c] ++ joinSep [c] ((s2 :: rest) ++ [b]) =
      (s ++ [c] ++ joinSep [c] (s2 :: rest)) ++ c :: b
    rw [ih]
    simp [List.append_assoc]

theorem two_le_length_splitOnChar {c : Char} :
    ∀ {s : List Char}, c ∈ s → 2 ≤ (splitOnChar c s).length
  | x :: xs, h => by
    rcases hs : splitOnChar c xs with _ | ⟨r, rs⟩
    · exact absurd hs (splitOnChar_ne_nil c xs)
    · simp only [splitOnChar, hs]
      by_cases hx : x = c
      · simp [hx]
      · have hc : c ∈ xs := by
          rcases List.mem_cons.mp h with h1 | h2
          · exact absurd h1.symm hx
          · exact h2
        have ih := two_le_length_splitOnChar hc
        rw [hs] at ih
        simp only [if_neg hx, List.length_cons] at *
        omega

theorem cmpChar_eq_iff {a b : Char} : cmpChar a b = .eq ↔ a = b := by
  unfold cmpChar
  rw [Nat.compare_eq_eq]
  constructor
  · intro h
    have h2 := congrArg Char.ofNat h
    rwa [Char.ofNat_toNat, Char.ofNat_toNat] at h2
  · intro h
    rw [h]

theorem cmpList_eq_iff {cmp : α → α → Ordering}
    (hiff : ∀ a b, cmp a b = .eq ↔ a = b) :
    ∀ {s t : List α}, cmpList cmp s t = .eq ↔ s = t
  | [], [] => by simp [cmpList]
  | [], _ :: _ => by simp [cmpList]
  | _ :: _, [] => by simp [cmpList]
  | x :: xs, y :: ys => by
    simp only [cmpList, Ordering.then_eq_eq, hiff, cmpList_eq_iff hiff (s := xs) (t := ys),
      List.cons.injEq]

theorem exists_getLast?_of_ne_nil {l : List α} (h : l ≠ []) :
    ∃ a, l.getLast? = some a := by
  cases hg : l.getLast? with
  | none => exact absurd (List.getLast?_eq_none_iff.mp hg) h
  | some a => exact ⟨a, rfl⟩

theorem from_dist_info_of_wf {s : List Char}
    (hsuf : distInfoSuffix <:+ s)
    (hlen : 2 ≤ (splitOnChar '-' (trimEndMatches s distInfoSuffix)).length)
    {version : List Char}
    (hv : (splitOnChar '-' (trimEndMatches s distInfoSuffix)).getLast? = some version) :
    Package.from_dist_info s =
      some ⟨joinSep ['-'] (splitOnChar '-' (trimEndMatches s distInfoSuffix)).dropLast,
        VersionSpec.new version, none⟩ := by
  unfold Package.from_dist_info
  rw [if_pos (List.isSuffixOf_iff_suffix.mpr hsuf)]
  dsimp only
  rw [if_pos hlen, hv]
  rfl

-- Section H: the claims -------------------------------------------------------

/-- C2: for every input of the form `<name>-<version>.dist-info`,
`Package::from_dist_info` takes the last `-`-separated segment of the stem as
the version and re-joins all preceding segments (which may themselves contain
`-`) as the name; in particular `matplotlib-3.9.0.dist-info` yields name
`matplotlib` / version `3.9.0`, and `scikit-learn-1.3.0.dist-info` yields name
`scikit-learn` / version `1.3.0`. -/
theorem from_dist_info_name_version_split :
    (∀ (name version : List Char), '-' ∉ version →
        ¬ distInfoSuffix <:+ (name ++ '-' :: version) →
        Package.from_dist_info (name ++ '-' :: version ++ distInfoSuffix) =
          some ⟨name, VersionSpec.new version, none⟩) ∧
    Package.from_dist_info "matplotlib-3.9.0.dist-info".toList =
      some ⟨"matplotlib".toList, VersionSpec.new "3.9.0".toList, none⟩ ∧
    Package.from_dist_info "scikit-learn-1.3.0.dist-info".toList =
      some ⟨"scikit-learn".toList, VersionSpec.new "1.3.0".toList, none⟩ := by
  refine ⟨?_, by decide, by decide⟩
  intro name version hv hnos
  have hstem : name ++ '-' :: version ++ distInfoSuffix =
      (name ++ '-' :: version) ++ distInfoSuffix := by
    rw [List.append_assoc]
  have htrim : trimEndMatches (name ++ '-' :: version ++ distInfoSuffix) distInfoSuffix =
      name ++ '-' :: version := by
    rw [hstem, trimEndMatches_append (by decide), trimEndMatches_of_not_suffix hnos]
  have hsuf : distInfoSuffix <:+ name ++ '-' :: version ++ distInfoSuffix := by
    rw [hstem]
    exact List.suffix_append _ _
  have hsplit : splitOnChar '-' (name ++ '-' :: version) =
      splitOnChar '-' name ++ [version] :=
    splitOnChar_append hv name
  have hone : 1 ≤ (splitOnChar '-' name).length :=
    List.length_pos.mpr (splitOnChar_ne_nil '-' name)
  have hlen : 2 ≤ (splitOnChar '-' (trimEndMatches
      (name ++ '-' :: version ++ distInfoSuffix) distInfoSuffix)).length := by
    rw [htrim, hsplit, List.length_append]
    simp only [List.length_singleton]
    omega
  have hlast : (splitOnChar '-' (trimEndMatches
      (name ++ '-' :: version ++ distInfoSuffix) distInfoSuffix)).getLast? = some version := by
    rw [htrim, hsplit]
    exact List.getLast?_concat _
  rw [from_dist_info_of_wf hsuf hlen hlast, htrim, hsplit, List.dropLast_concat,
    joinSep_splitOnChar]

/-- C2 witness: the general part of `from_dist_info_name_version_split`
instantiated at the hyphenated name `scikit-learn`. -/
theorem from_dist_info_name_version_split_witness :
    Package.from_dist_info ("scikit-learn".toList ++ '-' :: "1.3.0".toList ++ distInfoSuffix) =
      some ⟨"scikit-learn".toList, VersionSpec.new "1.3.0".toList, none⟩ :=
  from_dist_info_name_version_split.1 "scikit-learn".toList "1.3.0".toList
    (by decide) (by decide)

/-- C3: an input that does not end with `.dist-info`, or whose suffix-stripped
stem has fewer than two `-`-separated segments, makes `Package::from_dist_info`
return `None` (and, the function being total, it neither errors nor panics). -/
theorem from_dist_info_malformed_none :
    ∀ s : List Char,
      (¬ distInfoSuffix <:+ s ∨
        (splitOnChar '-' (trimEndMatches s distInfoSuffix)).length < 2) →
      Package.from_dist_info s = none := by
  intro s h
  unfold Package.from_dist_info
  rcases h with h | h
  · rw [if_neg fun hc => h (List.isSuffixOf_iff_suffix.mp hc)]
  · by_cases hsuf : distInfoSuffix.isSuffixOf s
    · rw [if_pos hsuf]
      dsimp only
      rw [if_neg (by omega)]
    · rw [if_neg hsuf]

/-- C3 witness: `matplotlib-3.9.0.dist-in` (truncated suffix) yields `None`. -/
theorem from_dist_info_malformed_none_witness :
    Package.from_dist_info "matplotlib-3.9.0.dist-in".toList = none :=
  from_dist_info_malformed_none _ (Or.inl (by decide))

/-- C9: for every input ending in `.dist-info` whose suffix-stripped stem
contains at least one `-`, the parsed package's name is the stem minus its
final `-`-separated segment, so name ++ `-` ++ final segment reconstructs the
stem exactly. -/
theorem from_dist_info_round_trip :
    ∀ s : List Char, distInfoSuffix <:+ s →
      '-' ∈ trimEndMatches s distInfoSuffix →
      ∃ (p : Package) (version : List Char),
        Package.from_dist_info s = some p ∧
        (splitOnChar '-' (trimEndMatches s distInfoSuffix)).getLast? = some version ∧
        p.name = joinSep ['-'] (splitOnChar '-' (trimEndMatches s distInfoSuffix)).dropLast ∧
        p.name ++ '-' :: version = trimEndMatches s distInfoSuffix := by
  intro s hsuf hmem
  have hlen : 2 ≤ (splitOnChar '-' (trimEndMatches s distInfoSuffix)).length :=
    two_le_length_splitOnChar hmem
  obtain ⟨version, hv⟩ :=
    exists_getLast?_of_ne_nil (splitOnChar_ne_nil '-' (trimEndMatches s distInfoSuffix))
  have hparts : (splitOnChar '-' (trimEndMatches s distInfoSuffix)).dropLast ++ [version] =
      splitOnChar '-' (trimEndMatches s distInfoSuffix) :=
    List.dropLast_append_getLast? version (Option.mem_def.mpr hv)
  have hdl : (splitOnChar '-' (trimEndMatches s distInfoSuffix)).dropLast ≠ [] := by
    intro hnil
    rw [hnil] at hparts
    rw [← hparts] at hlen
    simp at hlen
  refine ⟨_, version, from_dist_info_of_wf hsuf hlen hv, hv, rfl, ?_⟩
  calc
    joinSep ['-'] (splitOnChar '-' (trimEndMatches s distInfoSuffix)).dropLast ++ '-' :: version
        = joinSep ['-'] ((splitOnChar '-' (trimEndMatches s distInfoSuffix)).dropLast ++
            [version]) := (joinSep_concat '-' version _ hdl).symm
    _ = joinSep ['-'] (splitOnChar '-' (trimEndMatches s distInfoSuffix)) := by rw [hparts]
    _ = trimEndMatches s distInfoSuffix := joinSep_splitOnChar '-' _

/-- C9 witness: the round trip at `matplotlib-3.9.0.dist-info`. -/
theorem from_dist_info_round_trip_witness :
    ∃ (p : Package) (version : List Char),
      Package.from_dist_info "matplotlib-3.9.0.dist-info".toList = some p ∧
      (splitOnChar '-' (trimEndMatches "matplotlib-3.9.0.dist-info".toList
        distInfoSuffix)).getLast? = some version ∧
      p.name = joinSep ['-'] (splitOnChar '-' (trimEndMatches
        "matplotlib-3.9.0.dist-info".toList distInfoSuffix)).dropLast ∧
      p.name ++ '-' :: version = trimEndMatches "matplotlib-3.9.0.dist-info".toList
        distInfoSuffix :=
  from_dist_info_round_trip _ (by decide) (by decide)

/-- Provenance record used in the C1 counterexample. -/
def cexDirectURL : DirectURL :=
  { kind := .archive "https://example.com/pkg-1.0.whl".toList, editable := false }

/-- C1 counterexample package without provenance. -/
def cexPackageA : Package :=
  { name := "pkg".toList, version := VersionSpec.new "1.0".toList, direct_url := none }

/-- C1 counterexample package equal to `cexPackageA` except for provenance. -/
def cexPackageB : Package :=
  { name := "pkg".toList, version := VersionSpec.new "1.0".toList,
    direct_url := some cexDirectURL }

/-- C1 counterexample: two packages with equal name and equal version but
different `direct_url` are NOT equal under the derived `PartialEq` of line 10
of `package.rs` (which includes the `direct_url` field), and they feed
different data to the hasher, refuting the claim that equality and hashing
depend only on `(name, version)`. -/
theorem package_identity_ignores_direct_url_refuted :
    cexPackageA.name = cexPackageB.name ∧
    cexPackageA.version = cexPackageB.version ∧
    Package.eqv cexPackageA cexPackageB = false ∧
    Package.hashInputs cexPackageA ≠ Package.hashInputs cexPackageB :=
  ⟨rfl, rfl, by decide, by decide⟩

/-- C1 (amended): the derived equality and hashing of `Package` are over all
three fields `(name, version, direct_url)`; packages agreeing on all three
fields are equal and hash identically, but a differing `direct_url` already
breaks equality (see the counterexample). -/
theorem package_identity_all_fields :
    ∀ p q : Package, p.name = q.name → p.version = q.version →
      p.direct_url = q.direct_url →
      Package.eqv p q = true ∧ Package.hashInputs p = Package.hashInputs q := by
  intro p q h1 h2 h3
  constructor
  · unfold Package.eqv
    rw [h1, h2, h3]
    simp [VersionSpec.eqv, VersionSpec.cmp_refl]
    rfl
  · unfold Package.hashInputs
    rw [h1, h2, h3]

/-- C1 witness: the amended theorem applied at a concrete package. -/
theorem package_identity_all_fields_witness :
    Package.eqv cexPackageA cexPackageA = true ∧
    Package.hashInputs cexPackageA = Package.hashInputs cexPackageA :=
  package_identity_all_fields cexPackageA cexPackageA rfl rfl rfl

/-- C4: the `Ord` impl of `Package` compares the lowercased names first and,
exactly when the lowercased names coincide, falls through to the version
comparison. -/
theorem package_cmp_name_then_version :
    ∀ a b : Package,
      (toLowerStr a.name = toLowerStr b.name →
        Package.cmp a b = VersionSpec.cmp a.version b.version) ∧
      (toLowerStr a.name ≠ toLowerStr b.name →
        Package.cmp a b = cmpList cmpChar (toLowerStr a.name) (toLowerStr b.name)) := by
  intro a b
  constructor
  · intro h
    unfold Package.cmp
    rw [(cmpList_eq_iff fun _ _ => cmpChar_eq_iff).mpr h]
    rfl
  · intro h
    unfold Package.cmp
    cases hc : cmpList cmpChar (toLowerStr a.name) (toLowerStr b.name) with
    | lt => rfl
    | eq => exact absurd ((cmpList_eq_iff fun _ _ => cmpChar_eq_iff).mp hc) h
    | gt => rfl

/-- C4 witness: `NumPy` and `numpy` have equal lowercased names, so the
comparison falls through to the versions. -/
theorem package_cmp_name_then_version_witness :
    Package.cmp ⟨"NumPy".toList, VersionSpec.new "1.26.0".toList, none⟩
        ⟨"numpy".toList, VersionSpec.new "2.1.2".toList, none⟩ =
      VersionSpec.cmp (VersionSpec.new "1.26.0".toList) (VersionSpec.new "2.1.2".toList) :=
  (package_cmp_name_then_version _ _).1 (by decide)

/-- C5: on parsed versions the comparison is a strict total order — for all
`a b` exactly one of `a<b`, `a==b`, `a>b` holds (`==` being comparison
equality), `<` and `==` are transitive — and release segments compare
numerically, so `1.9.0 < 1.10.0 < 2024.6.0` and in particular
`0.21.1 < 2024.6.0` inside the `Package` comparison. -/
theorem version_order_strict_total :
    (∀ a b : VersionParsed,
        (versionCmp a b = .lt ∨ versionCmp a b = .eq ∨ versionCmp a b = .gt) ∧
        ¬ (versionCmp a b = .lt ∧ versionCmp a b = .eq) ∧
        ¬ (versionCmp a b = .lt ∧ versionCmp a b = .gt) ∧
        ¬ (versionCmp a b = .eq ∧ versionCmp a b = .gt)) ∧
    (∀ a b c : VersionParsed,
        versionCmp a b = .lt → versionCmp b c = .lt → versionCmp a c = .lt) ∧
    (∀ a b c : VersionParsed,
        versionCmp a b = .eq → versionCmp b c = .eq → versionCmp a c = .eq) ∧
    versionCmp ⟨[1, 9, 0], none, none, none, none⟩
      ⟨[1, 10, 0], none, none, none, none⟩ = .lt ∧
    versionCmp ⟨[1, 10, 0], none, none, none, none⟩
      ⟨[2024, 6, 0], none, none, none, none⟩ = .lt ∧
    Package.cmp ⟨"xarray".toList, VersionSpec.new "0.21.1".toList, none⟩
      ⟨"xarray".toList, VersionSpec.new "2024.6.0".toList, none⟩ = .lt := by
  refine ⟨?_, ?_, ?_, by decide, by decide, by decide⟩
  · intro a b
    cases h : versionCmp a b <;> simp
  · intro a b c h1 h2
    exact TransCmp.lt_trans h1 h2
  · intro a b c h1 h2
    rw [TransCmp.cmp_congr_left h1]
    exact h2

/-- C5 witness: transitivity applied at `1.9.0 < 1.10.0 < 2024.6.0`. -/
theorem version_order_strict_total_witness :
    versionCmp ⟨[1, 9, 0], none, none, none, none⟩
      ⟨[2024, 6, 0], none, none, none, none⟩ = .lt :=
  version_order_strict_total.2.1
    ⟨[1, 9, 0], none, none, none, none⟩
    ⟨[1, 10, 0], none, none, none, none⟩
    ⟨[2024, 6, 0], none, none, none, none⟩ (by decide) (by decide)

/-- C6: when the path's file name ends in `.dist-info`, the path is a
directory and the stem parses, `Package::from_file_path` returns a `Package`
with `direct_url = None` whenever the colocated `direct_url.json` is missing
(`durl_is_file = false`) or unreadable/unparseable (`from_file` errors); a
provenance failure is never an error for package construction. -/
theorem from_file_path_provenance_failure :
    ∀ (fp : PathInfo) (fname : List Char),
      fp.file_name = some fname →
      distInfoSuffix <:+ fname →
      fp.is_dir = true →
      2 ≤ (splitOnChar '-' (trimEndMatches fname distInfoSuffix)).length →
      (fp.durl_is_file = false ∨ fp.durl_from_file = .error ()) →
      ∃ p : Package, Package.from_file_path fp = some p ∧ p.direct_url = none := by
  intro fp fname hname hsuf hdir hlen hfail
  obtain ⟨version, hv⟩ :=
    exists_getLast?_of_ne_nil (splitOnChar_ne_nil '-' (trimEndMatches fname distInfoSuffix))
  obtain ⟨ofn, isdir, durlfile, durlres⟩ := fp
  have hofn : ofn = some fname := hname
  subst hofn
  have hdir' : isdir = true := hdir
  subst hdir'
  have hdurl : (if durlfile = true then durlres.toOption else none) = none := by
    rcases hfail with h | h
    · have h' : durlfile = false := h
      rw [h']
      rfl
    · have h' : durlres = .error () := h
      by_cases hf : durlfile = true
      · rw [if_pos hf, h']
        rfl
      · rw [if_neg hf]
  simp only [Package.from_file_path]
  rw [if_pos (by rw [List.isSuffixOf_iff_suffix.mpr hsuf]; rfl)]
  simp only [hdurl]
  rw [if_pos hlen, hv]
  exact ⟨_, rfl, rfl⟩

/-- C6 witness: a `matplotlib-3.9.0.dist-info` directory whose
`direct_url.json` is missing. -/
theorem from_file_path_provenance_failure_witness :
    ∃ p : Package,
      Package.from_file_path
        ⟨some "matplotlib-3.9.0.dist-info".toList, true, false, .error ()⟩ = some p ∧
      p.direct_url = none :=
  from_file_path_provenance_failure _ "matplotlib-3.9.0.dist-info".toList rfl
    (by decide) rfl (by decide) (Or.inl rfl)

/-- C7: version parsing never fails — for every input, `VersionSpec::new`
yields a value, either a normally parsed version or the opaque raw fallback
carrying the input text. -/
theorem version_spec_new_never_fails :
    ∀ s : List Char,
      (∃ p, VersionSpec.new s = .parsed p) ∨ VersionSpec.new s = .raw s := by
  intro s
  unfold VersionSpec.new
  cases tryParseVersion s with
  | some p => exact Or.inl ⟨p, rfl⟩
  | none => exact Or.inr rfl

/-- C8: `Package::from_name_and_version` and
`Package::from_name_version_direct_url` return `Some` on every input — the
`None` case of their `Option` return type is unreachable, so caller-side
handling of `None` from these constructors is dead code. -/
theorem constructors_always_some :
    ∀ (name version : List Char) (durl : Option DirectURL),
      Package.from_name_and_version name version =
        some ⟨name, VersionSpec.new version, none⟩ ∧
      Package.from_name_version_direct_url name version durl =
        some ⟨name, VersionSpec.new version, durl⟩ :=
  fun _ _ _ => ⟨rfl, rfl⟩

/-- C10: rendering an empty table is a no-op — with an empty records vector or
an empty headers vector, `to_table_writer` writes nothing and returns `Ok`,
in both delimited and column-table modes, and so does `Tableable::to_writer`. -/
theorem empty_table_writes_nothing :
    ∀ (headers : List HeaderFormat) (records : List Record) (delimiter : Option Str)
      (context : RowableContext) (w_terminal : Nat),
      records = [] ∨ headers = [] →
      to_table_writer headers records delimiter context w_terminal = .ok [] ∧
      Tableable.to_writer ⟨headers, records⟩ delimiter context w_terminal = .ok [] := by
  intro headers records delimiter context w_terminal h
  have hempty : (records.isEmpty || headers.isEmpty) = true := by
    rcases h with h | h <;> simp [h]
  have htw : to_table_writer headers records delimiter context w_terminal = .ok [] := by
    unfold to_table_writer
    rw [if_pos hempty]
  refine ⟨htw, ?_⟩
  unfold Tableable.to_writer
  dsimp only
  rw [htw]

/-- C10 witness: empty records with a non-empty header in column-table (TTY)
mode. -/
theorem empty_table_writes_nothing_witness :
    to_table_writer [{ header := "name".toList, ellipsisable := true }] [] none
        .TTY 80 = .ok [] ∧
    Tableable.to_writer ⟨[{ header := "name".toList, ellipsisable := true }], []⟩ none
        .TTY 80 = .ok [] :=
  empty_table_writes_nothing _ _ _ _ _ (Or.inl rfl)

end Fetter
